import Mathlib

/-!
# A shallow embedding of the TwoFourTree debug operations

This file embeds the code of `src/debug_operations.ipp` of the TwoFourTree
repository: the structural validator (`TwoFourTree::Node::validateRelationships`,
reached through `TwoFourTree::validate`), the node label printer
(`TwoFourTree::Node::getString`) and the two-pass tree renderer
(`TwoFourTree::Node::getStringAll` with its two captured helpers
`SetBeginLocation` and `SetEndLocation`).

Modelling conventions:

* A C++ `Node` holds `keys_` (a `std::array<K,3>` of which the first
  `num_keys_` entries are meaningful), `children_` (a `std::array` of 4
  owning pointers), and a raw non-owning `parent_` pointer.  The node class
  itself is declared outside the file under verification, so the record
  shape is modelled from the spec (§3 Data model): keys are its meaningful
  prefix (`keys` of length `num_keys_`), children are 4 optional slots, and
  pointer identity is modelled by a node id `nid`, with the stored
  `parent_` pointer modelled as `parent : Option Nat` (the id of the node
  it points to, `none` for `nullptr`).  Keys are specialised to `Int`.
* Reads of `keys_[i]` outside `[0, num_keys_)` are undefined behaviour in
  C++; the model (`keyAt`, `keyAtI`) returns 0 there, and the list of
  performed accesses is tracked separately so that claim C9 can reason
  about which indices the validator actually touches.
* `unique_ptr` ownership means the child graph is a finite tree, so nodes
  are a nested inductive type.
-/

inductive Node : Type where
  | mk (nid : Nat) (keys : List Int) (parent : Option Nat)
       (children : List (Option Node)) : Node

def Node.nid : Node → Nat
  | .mk i _ _ _ => i

def Node.keys : Node → List Int
  | .mk _ k _ _ => k

def Node.parent : Node → Option Nat
  | .mk _ _ p _ => p

def Node.children : Node → List (Option Node)
  | .mk _ _ _ c => c

/-- `kMaxNumChildren` of the C++ node: `children_` has 4 slots. -/
def kMaxNumChildren : Nat := 4

/-- `num_keys_`: the number of meaningful keys of the node. -/
def numKeys (n : Node) : Nat := n.keys.length

/-- `keys_[i]` for a non-negative index `i`; 0 outside the meaningful range
(the C++ read would be out of bounds there, see claim C9). -/
def keyAt (n : Node) (i : Nat) : Int := n.keys.getD i 0

/-- `keys_[i]` for an `int` index `i` (the C++ index expressions
`num_keys_ - 1` are `int` arithmetic and can be `-1`); 0 outside the
meaningful range. -/
def keyAtI (n : Node) (i : Int) : Int :=
  if 0 ≤ i then keyAt n i.toNat else 0

/-- `children_[i]` (a missing slot is the null pointer). -/
def childAt (n : Node) (i : Nat) : Option Node := n.children.getD i none

/-- Modelled from the spec: `Node::isLeaf` is declared outside the file
under verification; per §3 a leaf "owns zero children", so a node is a
leaf exactly when every child slot is null. -/
def isLeaf (n : Node) : Bool := n.children.all (fun c => c.isNone)

/-- The non-null children among the first `k` slots, together with their
slot index (in slot order).  This is the shape of every child scan in the
source: the validator scans slots `0 .. num_keys_` and the renderer scans
slots `0 .. kMaxNumChildren - 1`, skipping null slots. -/
def slotsIdx : List (Option Node) → Nat → Nat → List (Nat × Node)
  | [], _, _ => []
  | _, 0, _ => []
  | none :: rest, k + 1, i => slotsIdx rest k (i + 1)
  | some c :: rest, k + 1, i => (i, c) :: slotsIdx rest k (i + 1)

/-- The non-null children among the first `k` slots, in slot order. -/
def slotsUpTo (cs : List (Option Node)) (k : Nat) : List Node :=
  (slotsIdx cs k 0).map Prod.snd

/-- The non-null children the validator traverses: slots `0 .. num_keys_`
(children in later slots are never enqueued by `validateRelationships`). -/
def enqueuedChildren (n : Node) : List Node :=
  slotsUpTo n.children (numKeys n + 1)

/-- All non-null children (slots `0 .. kMaxNumChildren - 1`), as scanned by
both passes of `getStringAll`. -/
def allChildren (n : Node) : List Node :=
  slotsUpTo n.children kMaxNumChildren

mutual

/-- Number of nodes of the subtree (termination measure). -/
def Node.size : Node → Nat
  | .mk _ _ _ cs => 1 + sizeChildren cs

def sizeChildren : List (Option Node) → Nat
  | [] => 0
  | none :: rest => sizeChildren rest
  | some n :: rest => Node.size n + sizeChildren rest

end

theorem size_slotsIdx_le (cs : List (Option Node)) (k i : Nat) :
    (((slotsIdx cs k i).map Prod.snd).map Node.size).sum ≤ sizeChildren cs := by
  induction cs generalizing k i with
  | nil => simp [slotsIdx]
  | cons c rest ih =>
    cases k with
    | zero => cases c <;> simp [slotsIdx]
    | succ k =>
      cases c with
      | none => simpa [slotsIdx, sizeChildren] using ih k (i + 1)
      | some n =>
        simp only [slotsIdx, List.map_cons, List.sum_cons, sizeChildren]
        have := ih k (i + 1)
        omega

theorem size_pos (n : Node) : 0 < Node.size n := by
  cases n with
  | mk i ks p cs => simp [Node.size]

theorem size_slotsUpTo_lt (n : Node) (k : Nat) :
    ((slotsUpTo n.children k).map Node.size).sum < Node.size n := by
  cases n with
  | mk i ks p cs =>
    have := size_slotsIdx_le cs k 0
    simp only [slotsUpTo, Node.children, Node.size] at *
    omega

mutual

/-- All nodes of the tree, every child slot included (depth-first order;
only the set of elements is used). -/
def dfsAll (n : Node) : List Node :=
  n :: dfsAllMany (allChildren n)
  termination_by 2 * Node.size n
  decreasing_by
    have h := size_slotsUpTo_lt n kMaxNumChildren
    simp only [allChildren]
    omega

def dfsAllMany : List Node → List Node
  | [] => []
  | n :: rest => dfsAll n ++ dfsAllMany rest
  termination_by l => 2 * (l.map Node.size).sum + 1
  decreasing_by
    · simp only [List.map_cons, List.sum_cons]
      omega
    · have h := size_pos n
      simp only [List.map_cons, List.sum_cons]
      omega

end

mutual

/-- The nodes the validator's walk can reach: child slots `0 .. num_keys_`
only (depth-first order; only the set of elements is used). -/
def dfsReach (n : Node) : List Node :=
  n :: dfsReachMany (enqueuedChildren n)
  termination_by 2 * Node.size n
  decreasing_by
    have h := size_slotsUpTo_lt n (numKeys n + 1)
    simp only [enqueuedChildren]
    omega

def dfsReachMany : List Node → List Node
  | [] => []
  | n :: rest => dfsReach n ++ dfsReachMany rest
  termination_by l => 2 * (l.map Node.size).sum + 1
  decreasing_by
    · simp only [List.map_cons, List.sum_cons]
      omega
    · have h := size_pos n
      simp only [List.map_cons, List.sum_cons]
      omega

end

/-!
## `Node::getString` (lines 304-320)

The label of one node: `"[]"` for an empty node, otherwise `"["`, the
first key, `", " ++ key` for every index `1 <= i < num_keys_ - 1`, and a
final `", " ++ last ++ "]"` when there is more than one key.
-/

def getString (n : Node) : String :=
  if numKeys n = 0 then "[]"
  else
    let s0 := "[" ++ toString (keyAt n 0)
    let s1 := s0 ++ String.join
      (((List.range' 1 (numKeys n - 2)).map (fun i => ", " ++ toString (keyAt n i))))
    if 1 < numKeys n then s1 ++ ", " ++ toString (keyAt n (numKeys n - 1)) ++ "]"
    else s1 ++ "]"

/-- `getString().length()`. -/
def labelLen (n : Node) : Nat := (getString n).length

/-- Modelled from the claim wording of C6: the keys rendered in stored
order, separated by `", "`. -/
def sepJoin : List String → String
  | [] => ""
  | [x] => x
  | x :: y :: rest => x ++ ", " ++ sepJoin (y :: rest)

def mkSpaces (k : Nat) : String := String.mk (List.replicate k ' ')

/-- `std::setw(w) << std::right << s`: pads `s` on the left with spaces up
to width `w` (no-op if `s` is already at least `w` wide). -/
def padLeft (w : Nat) (s : String) : String := mkSpaces (w - s.length) ++ s

/-!
## `Node::validateRelationships` (lines 32-113)

A breadth-first walk over a deque of `(expected parent, node)` pairs,
seeded with `(nullptr, this)`.  For each popped pair the code

* compares the expected parent against the stored `parent_` (line 46),
* checks adjacent keys for `keys_[i-1] > keys_[i]` (lines 62-68),
* for every non-null child in slots `0 .. num_keys_ - 1` checks
  `child->keys_[child->num_keys_-1] > keys_[i]`, enqueues the child and
  counts it (lines 76-88),
* for a non-null child in slot `num_keys_` checks
  `child->keys_[0] < keys_[num_keys_-1]`, enqueues and counts it
  (lines 89-99),
* for a non-leaf checks that the counted children equal
  `num_keys_ + 1` (lines 101-110).

Each failed check prints a diagnostic and sets the running result `rc` to
`false`; the walk always continues.  `rcOfPairs` mirrors `rc`,
`violationsOfPairs` mirrors the printed diagnostics (as structured values:
node identity plus the printed quantities), `traceOfPairs` mirrors the
sequence of popped pairs, and `accessesOfPairs` records every `keys_`
array read as `(node id, that node's num_keys_, index read)`.
-/

inductive Violation : Type where
  | parentMismatch (nid : Nat) (expected actual : Option Nat)
  | keysOutOfOrder (nid : Nat) (left right : Int)
  | leftChildTooBig (nid : Nat) (childKey nodeKey : Int)
  | rightChildTooSmall (nid : Nat) (childKey nodeKey : Int)
  | childCountMismatch (nid : Nat) (nkeys nchildren : Nat)
deriving DecidableEq, Repr

/-- Line 46: `check.first != check.second->parent_`. -/
def parentOk (ep : Option Nat) (n : Node) : Bool := decide (ep = n.parent)

def parentViols (ep : Option Nat) (n : Node) : List Violation :=
  if ep = n.parent then [] else [.parentMismatch n.nid ep n.parent]

/-- The loop indices of lines 62-68: `i = 1 .. num_keys_ - 1`. -/
def sortedIdx (n : Node) : List Nat := List.range' 1 (numKeys n - 1)

/-- Lines 62-68: adjacent keys must not satisfy `keys_[i-1] > keys_[i]`
(equal adjacent keys are not flagged). -/
def sortedOk (n : Node) : Bool :=
  (sortedIdx n).all (fun i => !(keyAt n (i - 1) > keyAt n i))

def sortedViols (n : Node) : List Violation :=
  (sortedIdx n).filterMap (fun i =>
    if keyAt n (i - 1) > keyAt n i then
      some (.keysOutOfOrder n.nid (keyAt n (i - 1)) (keyAt n i))
    else none)

/-- Lines 76-88: for each non-null child at slot `i < num_keys_`, the
check `child->keys_[child->num_keys_-1] > keys_[i]`. -/
def leftOk (n : Node) : Bool :=
  (List.range (numKeys n)).all (fun i =>
    match childAt n i with
    | none => true
    | some c => !(keyAtI c ((numKeys c : Int) - 1) > keyAt n i))

def leftViols (n : Node) : List Violation :=
  (List.range (numKeys n)).filterMap (fun i =>
    match childAt n i with
    | none => none
    | some c =>
      if keyAtI c ((numKeys c : Int) - 1) > keyAt n i then
        some (.leftChildTooBig n.nid (keyAtI c ((numKeys c : Int) - 1)) (keyAt n i))
      else none)

/-- Lines 89-99: for a non-null child at slot `num_keys_`, the check
`child->keys_[0] < keys_[num_keys_-1]`. -/
def lastOk (n : Node) : Bool :=
  match childAt n (numKeys n) with
  | none => true
  | some c => !(keyAtI c 0 < keyAtI n ((numKeys n : Int) - 1))

def lastViols (n : Node) : List Violation :=
  match childAt n (numKeys n) with
  | none => []
  | some c =>
    if keyAtI c 0 < keyAtI n ((numKeys n : Int) - 1) then
      [.rightChildTooSmall n.nid (keyAtI c 0) (keyAtI n ((numKeys n : Int) - 1))]
    else []

/-- `num_children` as counted by the loop: non-null slots `0 .. num_keys_`. -/
def numChildrenCounted (n : Node) : Nat := (enqueuedChildren n).length

/-- Lines 101-110: a non-leaf must have `num_keys_ + 1` counted children. -/
def countOk (n : Node) : Bool :=
  !(!isLeaf n && numChildrenCounted n ≠ numKeys n + 1)

def countViols (n : Node) : List Violation :=
  if !isLeaf n && numChildrenCounted n ≠ numKeys n + 1 then
    [.childCountMismatch n.nid (numKeys n) (numChildrenCounted n)]
  else []

/-- The contribution of one popped pair to `rc`. -/
def nodeOk (ep : Option Nat) (n : Node) : Bool :=
  parentOk ep n && sortedOk n && leftOk n && lastOk n && countOk n

/-- The diagnostics one popped pair prints, in program order. -/
def nodeViols (ep : Option Nat) (n : Node) : List Violation :=
  parentViols ep n ++ sortedViols n ++ leftViols n ++ lastViols n ++ countViols n

/-- The `keys_` reads one popped pair performs, in program order, as
`(node id, that node's num_keys_, index)`.  The index expressions are the
C++ `int` expressions, so `num_keys_ - 1` of a key-less node is `-1`. -/
def nodeAccesses (n : Node) : List (Nat × Nat × Int) :=
  ((sortedIdx n).flatMap (fun i =>
      [(n.nid, numKeys n, (i : Int) - 1), (n.nid, numKeys n, (i : Int))]))
  ++ ((List.range (numKeys n)).flatMap (fun i =>
      match childAt n i with
      | none => []
      | some c => [(c.nid, numKeys c, (numKeys c : Int) - 1), (n.nid, numKeys n, (i : Int))]))
  ++ (match childAt n (numKeys n) with
      | none => []
      | some c => [(c.nid, numKeys c, 0), (n.nid, numKeys n, (numKeys n : Int) - 1)])

/-- The pairs pushed while processing `n`: `(n, child)` for every non-null
child in slots `0 .. num_keys_`, in slot order (lines 85 and 97). -/
def enqPairs (n : Node) : List (Option Nat × Node) :=
  (enqueuedChildren n).map (fun c => (some n.nid, c))

def pairsMeasure (q : List (Option Nat × Node)) : Nat :=
  (q.map (fun pr => Node.size pr.2)).sum

theorem pairsMeasure_step (ep : Option Nat) (n : Node)
    (rest : List (Option Nat × Node)) :
    pairsMeasure (rest ++ enqPairs n) < pairsMeasure ((ep, n) :: rest) := by
  have h1 : ((enqueuedChildren n).map Node.size).sum < Node.size n :=
    size_slotsUpTo_lt n (numKeys n + 1)
  have h2 : List.map ((fun pr => Node.size pr.2) ∘ fun c => ((some n.nid : Option Nat), c))
      (enqueuedChildren n) = List.map Node.size (enqueuedChildren n) := rfl
  simp only [pairsMeasure, List.map_append, List.sum_append, List.map_cons, List.sum_cons,
    enqPairs, List.map_map, h2]
  omega

/-- The final value of `rc` for a given work queue. -/
def rcOfPairs : List (Option Nat × Node) → Bool
  | [] => true
  | (ep, n) :: rest => nodeOk ep n && rcOfPairs (rest ++ enqPairs n)
  termination_by q => pairsMeasure q
  decreasing_by exact pairsMeasure_step ep n rest

/-- All diagnostics printed for a given work queue, in print order. -/
def violationsOfPairs : List (Option Nat × Node) → List Violation
  | [] => []
  | (ep, n) :: rest => nodeViols ep n ++ violationsOfPairs (rest ++ enqPairs n)
  termination_by q => pairsMeasure q
  decreasing_by exact pairsMeasure_step ep n rest

/-- The sequence of popped `(expected parent, node)` pairs (breadth-first
visit order). -/
def traceOfPairs : List (Option Nat × Node) → List (Option Nat × Node)
  | [] => []
  | (ep, n) :: rest => (ep, n) :: traceOfPairs (rest ++ enqPairs n)
  termination_by q => pairsMeasure q
  decreasing_by exact pairsMeasure_step ep n rest

/-- All `keys_` reads for a given work queue, in program order. -/
def accessesOfPairs : List (Option Nat × Node) → List (Nat × Nat × Int)
  | [] => []
  | (ep, n) :: rest => nodeAccesses n ++ accessesOfPairs (rest ++ enqPairs n)
  termination_by q => pairsMeasure q
  decreasing_by exact pairsMeasure_step ep n rest

/-- `Node::validateRelationships`, seeded with `(nullptr, this)`
(line 38).  `TwoFourTree::validate` (lines 23-26) returns exactly
`root_->validateRelationships()`. -/
def validateRelationships (t : Node) : Bool := rcOfPairs [(none, t)]

/-- The diagnostics `validateRelationships` prints for the whole tree. -/
def validateViolations (t : Node) : List Violation := violationsOfPairs [(none, t)]

/-- The `(expected parent, node)` pairs `validateRelationships` visits,
in breadth-first order. -/
def validateTrace (t : Node) : List (Option Nat × Node) := traceOfPairs [(none, t)]

/-- The `keys_` array reads `validateRelationships` performs. -/
def validateAccesses (t : Node) : List (Nat × Nat × Int) := accessesOfPairs [(none, t)]

/-!
## `Node::getStringAll` (lines 137-302)

Two breadth-first passes over the tree, with an `end_of_level` sentinel
marking line boundaries (modelled here by processing the traversal one
level at a time: the sentinel is popped exactly once between two levels,
resets `current_offset` to 0 — pass 1 — or prints the newline — pass 2 —
and the loop stops when only the sentinel remains, i.e. when the next
level is empty).

Pass 1 records a `(begin, end)` horizontal offset pair per node in
`offsets`, a map keyed by node address (modelled by node id).  Leaves get
the span `[current_offset, current_offset + label length + 1)` and
propagate `begin` upward while they are a first child (`SetBeginLocation`)
and `end` upward while they are a last child (`SetEndLocation`); internal
nodes get a `{0,0}` placeholder when popped, later overwritten by the
propagation from their leaf descendants.

The C++ helpers climb the raw `parent_` pointers and call
`getMyChildIdx()`; the model materialises that climb as an explicit
ancestor chain `(parent, slot index) :: ...` carried alongside each node,
which coincides with the pointer climb whenever the stored parent
pointers are consistent with ownership (`consistentParents`).

Pass 2 prints leaves as `label ++ " "` and internal nodes via
`setw(given_length/2 + strlen/2) << right << (label ++ " ")` followed by
`setw(given_length/2 - strlen/2) << ' '`, after `assert(given_length >
strlen)`, where `given_length` is the `unsigned int` conversion of
`end - begin` and `strlen` the length of `label ++ " "`.  The assert
aborts the rendering; the model returns `none` for an aborted rendering.
-/

structure Loc where
  b : Int
  e : Int
deriving DecidableEq, Repr

/-- The `offsets` map, keyed by node identity. -/
abbrev OffMap := List (Nat × Loc)

def lookupOff : OffMap → Nat → Option Loc
  | [], _ => none
  | (j, l) :: rest, i => if j = i then some l else lookupOff rest i

/-- `offsets.emplace(node, l)`: inserts only when the key is absent. -/
def emplaceOff (m : OffMap) (i : Nat) (l : Loc) : OffMap :=
  if (lookupOff m i).isSome then m else m ++ [(i, l)]

/-- `it->second.begin = v`. -/
def setB (m : OffMap) (i : Nat) (v : Int) : OffMap :=
  m.map (fun p => if p.1 = i then (p.1, Loc.mk v p.2.e) else p)

/-- `it->second.end = v`. -/
def setE (m : OffMap) (i : Nat) (v : Int) : OffMap :=
  m.map (fun p => if p.1 = i then (p.1, Loc.mk p.2.b v) else p)

/-- The ancestor chain of a node: `(parent, slot index in that parent)`,
nearest ancestor first.  It materialises the `parent_` /
`getMyChildIdx()` climb of the two layout helpers. -/
abbrev Chain := List (Node × Nat)

/-- `SetBeginLocation` (lines 157-174): look the node up in `offsets`
(on a miss print `"logic error"` — counted in the second component — and
return), store `begin`, and recurse to the parent while the node is its
parent's child 0. -/
def SetBeginLocation : OffMap → Chain → Node → Int → OffMap × Nat
  | m, ch, node, bg =>
    match lookupOff m node.nid with
    | none => (m, 1)
    | some _ =>
      let m1 := setB m node.nid bg
      match ch with
      | [] => (m1, 0)
      | (p, myidx) :: rest =>
        if myidx = 0 then SetBeginLocation m1 rest p bg else (m1, 0)

/-- `SetEndLocation` (lines 176-196): look the node up in `offsets` (on a
miss print `"logic error"` and return), store `end`, and while the node is
its parent's last child (`myidx == parent->num_keys_`) recurse with
`end - trailing_whitespace_width`, where `trailing_whitespace_width =
(end - begin)/2 - (label length + 1)/2` (C++ `int` division truncates:
`Int.tdiv`).  In C++ the subtraction mixes `int` and `size_t` and so
wraps through unsigned arithmetic and back; the model computes the exact
integer value, which is what the C++ produces whenever the propagated
result fits in `int`. -/
def SetEndLocation : OffMap → Chain → Node → Int → OffMap × Nat
  | m, ch, node, en =>
    match lookupOff m node.nid with
    | none => (m, 1)
    | some l =>
      let m1 := setE m node.nid en
      match ch with
      | [] => (m1, 0)
      | (p, myidx) :: rest =>
        if myidx = numKeys p then
          let ws := en - l.b
          let trailing := Int.tdiv ws 2 - ((((labelLen node + 1) / 2 : Nat)) : Int)
          SetEndLocation m1 rest p (en - trailing)
        else (m1, 0)

/-- Processing one popped node in pass 1 (lines 217-242): a leaf is
assigned `[current_offset, current_offset + label length + 1)`, emplaced,
and both propagations run; an internal node is emplaced as `{0,0}`. -/
def pass1Step (st : Int × OffMap × Nat) (cn : Chain × Node) : Int × OffMap × Nat :=
  let off := st.1
  let m := st.2.1
  let errs := st.2.2
  let ch := cn.1
  let n := cn.2
  if isLeaf n then
    let fin := off + ((labelLen n : Int) + 1)
    let m1 := emplaceOff m n.nid (Loc.mk off fin)
    let r1 := SetBeginLocation m1 ch n off
    let r2 := SetEndLocation r1.1 ch n fin
    (fin, r2.1, errs + r1.2 + r2.2)
  else
    (off, emplaceOff m n.nid (Loc.mk 0 0), errs)

/-- The next breadth-first level in pass 1: the non-null children of the
level's nodes, slots `0 .. kMaxNumChildren - 1`, each with its extended
ancestor chain. -/
def levelChildren (cn : Chain × Node) : List (Chain × Node) :=
  (slotsIdx cn.2.children kMaxNumChildren 0).map (fun ic => ((cn.2, ic.1) :: cn.1, ic.2))

theorem size_levelChildren_lt (cn : Chain × Node) :
    ((levelChildren cn).map (fun pr => Node.size pr.2)).sum < Node.size cn.2 := by
  have h := size_slotsUpTo_lt cn.2 kMaxNumChildren
  have h2 : List.map ((fun pr => Node.size pr.2) ∘ fun ic => ((cn.2, ic.1) :: cn.1, ic.2))
      (slotsIdx cn.2.children kMaxNumChildren 0)
      = List.map (Node.size ∘ Prod.snd) (slotsIdx cn.2.children kMaxNumChildren 0) := rfl
  simp only [levelChildren, List.map_map, h2]
  simpa [slotsUpTo, List.map_map] using h

theorem size_flatMap_levelChildren_le (lvl : List (Chain × Node)) :
    ((lvl.flatMap levelChildren).map (fun pr => Node.size pr.2)).sum
      ≤ (lvl.map (fun pr => Node.size pr.2)).sum := by
  induction lvl with
  | nil => simp
  | cons cn rest ih =>
    have h := size_levelChildren_lt cn
    simp only [List.flatMap_cons, List.map_append, List.sum_append, List.map_cons,
      List.sum_cons]
    omega

/-- Pass 1 (lines 203-243), one breadth-first level at a time; returns the
final `offsets` map and the number of `"logic error"` diagnostics. -/
def pass1Go (lvl : List (Chain × Node)) (m : OffMap) (errs : Nat) : OffMap × Nat :=
  match lvl with
  | [] => (m, errs)
  | cn :: rest =>
    let st := (cn :: rest).foldl pass1Step ((0 : Int), m, errs)
    pass1Go ((cn :: rest).flatMap levelChildren) st.2.1 st.2.2
  termination_by (lvl.map (fun pr => Node.size pr.2)).sum
  decreasing_by
    have h1 := size_levelChildren_lt cn
    have h2 := size_flatMap_levelChildren_le rest
    simp only [List.flatMap_cons, List.map_append, List.sum_append, List.map_cons,
      List.sum_cons]
    omega

/-- Rendering one popped node in pass 2 (lines 271-288): a leaf prints
`label ++ " "`; an internal node reads its offsets entry, converts
`end - begin` to `unsigned int` (`given_length`), asserts
`given_length > strlen` for `strlen = (label ++ " ").length` — the model
returns `none` when the assertion aborts — and prints
`setw(given_length/2 + strlen/2) << right << (label ++ " ")` then
`setw(given_length/2 - strlen/2) << ' '`. -/
def renderNode (m : OffMap) (n : Node) : Option String :=
  if isLeaf n then some (getString n ++ " ")
  else
    let str := getString n ++ " "
    let strlen := str.length
    let l := (lookupOff m n.nid).getD (Loc.mk 0 0)
    let given := ((l.e - l.b).emod (2 ^ 32)).toNat
    if strlen < given then
      some (padLeft (given / 2 + strlen / 2) str ++ padLeft (given / 2 - strlen / 2) " ")
    else none

def renderLevel (m : OffMap) : List Node → Option String
  | [] => some ""
  | n :: rest =>
    match renderNode m n with
    | none => none
    | some s =>
      match renderLevel m rest with
      | none => none
      | some r => some (s ++ r)

theorem size_flatMap_allChildren_le (lvl : List Node) :
    ((lvl.flatMap allChildren).map Node.size).sum ≤ (lvl.map Node.size).sum := by
  induction lvl with
  | nil => simp
  | cons n rest ih =>
    have h := size_slotsUpTo_lt n kMaxNumChildren
    simp only [allChildren] at h
    simp only [List.flatMap_cons, List.map_append, List.sum_append, List.map_cons,
      List.sum_cons, allChildren]
    omega

/-- Pass 2 (lines 250-300), one breadth-first level at a time: each level
prints its nodes then a newline; `none` models the `assert` aborting. -/
def pass2Go (m : OffMap) (lvl : List Node) : Option String :=
  match lvl with
  | [] => some ""
  | n :: rest =>
    match renderLevel m (n :: rest) with
    | none => none
    | some s =>
      match pass2Go m ((n :: rest).flatMap allChildren) with
      | none => none
      | some r => some (s ++ "\n" ++ r)
  termination_by (lvl.map Node.size).sum
  decreasing_by
    have h1 := size_flatMap_allChildren_le rest
    have h3 : ((allChildren n).map Node.size).sum < Node.size n :=
      size_slotsUpTo_lt n kMaxNumChildren
    simp only [List.flatMap_cons, List.map_append, List.sum_append, List.map_cons,
      List.sum_cons]
    omega

/-- All nodes in breadth-first (level) order, as pass 2 visits them. -/
def bfsNodes (lvl : List Node) : List Node :=
  match lvl with
  | [] => []
  | n :: rest => (n :: rest) ++ bfsNodes ((n :: rest).flatMap allChildren)
  termination_by (lvl.map Node.size).sum
  decreasing_by
    have h1 := size_flatMap_allChildren_le rest
    have h3 : ((allChildren n).map Node.size).sum < Node.size n :=
      size_slotsUpTo_lt n kMaxNumChildren
    simp only [List.flatMap_cons, List.map_append, List.sum_append, List.map_cons,
      List.sum_cons]
    omega

/-- `Node::getStringAll`: pass 1 from `{([], this)}` with an empty map,
then pass 2, then the final `ss << std::endl` (line 299). `none` models an
`assert` abort. -/
def getStringAll (t : Node) : Option String :=
  let p1 := pass1Go [([], t)] [] 0
  (pass2Go p1.1 [t]).map (fun s => s ++ "\n")

/-- The `offsets` map produced by pass 1 on the whole tree. -/
def pass1Offsets (t : Node) : OffMap := (pass1Go [([], t)] [] 0).1

/-- The offsets entry pass 2 reads for node `n` of tree `t`. -/
def locOf (t n : Node) : Loc := (lookupOff (pass1Offsets t) n.nid).getD (Loc.mk 0 0)

/-- `end - begin` of the recorded pass-1 offsets, as mathematical
integers. -/
def spanOf (t n : Node) : Int := (locOf t n).e - (locOf t n).b

/-- The internal nodes pass 2 visits, in visit order. -/
def internalsList (t : Node) : List Node := (bfsNodes [t]).filter (fun n => !isLeaf n)

/-- Stored parent pointers agree with ownership everywhere (and the root's
is null): under this condition the C++ `parent_` / `getMyChildIdx()` climb
coincides with the model's ancestor chains. -/
def consistentParents (t : Node) : Bool :=
  decide (t.parent = none) &&
    (dfsAll t).all (fun p => (allChildren p).all (fun c => decide (c.parent = some p.nid)))

/-- All node ids distinct: node ids then model C++ pointer identity
faithfully (the offsets map is keyed by them). -/
def nidsDistinct (t : Node) : Bool := decide (((dfsAll t).map Node.nid).Nodup)

/-!
## Claim-side definitions and concrete example trees
-/

/-- Modelled from the claim wording of C7 ("label centered within its
span, left-padding span/2 + label/2, right-padding span/2 − label/2",
with "label" the bare label, the separator being listed separately): the
bare label right-aligned in a field of `span/2 + label/2`, followed by
`span/2 - label/2` spaces. -/
def claimInternalEmission (n : Node) (l : Loc) : String :=
  let lab := getString n
  let span := (l.e - l.b).toNat
  padLeft (span / 2 + lab.length / 2) lab ++ mkSpaces (span / 2 - lab.length / 2)

/-- Modelled from the claim wording of C4: for every node and child index
`i` below the key count the child's maximum key is at most `keys[i]`, and
the last child's minimum key is at least the node's last key. -/
def claimBoundsHold (t : Node) : Bool :=
  (dfsAll t).all (fun p =>
    ((List.range (numKeys p)).all (fun i =>
      match childAt p i with
      | none => true
      | some c => decide ((c.keys.max?.getD 0) ≤ keyAt p i))) &&
    (match childAt p (numKeys p) with
     | none => true
     | some c => decide (keyAt p (numKeys p - 1) ≤ (c.keys.min?.getD 0))))

/-- `children_` has a non-null slot. -/
def hasChild (n : Node) : Bool := n.children.any (fun c => c.isSome)

/-- The precondition of claim C9: every node that has a child holds at
least one key, and every (non-null) child holds at least one key. -/
def keysPrecond (t : Node) : Bool :=
  (dfsAll t).all (fun n =>
    (!hasChild n || decide (1 ≤ numKeys n)) &&
    (n.children.all (fun c =>
      match c with
      | none => true
      | some m => decide (1 ≤ numKeys m))))

/-- Every node has at most `kMaxNumChildren` child slots — always true of
the C++ `children_` array, stated explicitly for the list model. -/
def slotsFit (t : Node) : Bool :=
  (dfsAll t).all (fun n => decide (n.children.length ≤ kMaxNumChildren))

/-- A recorded `keys_` read `(nid, num_keys_, index)` is in bounds when
`0 ≤ index < num_keys_`. -/
def accessInBounds (a : Nat × Nat × Int) : Bool :=
  decide (0 ≤ a.2.2 ∧ a.2.2 < (a.2.1 : Int))

/-- A one-key leaf. -/
def leafN (i : Nat) (k : Int) (p : Option Nat) : Node :=
  .mk i [k] p [none, none, none, none]

/-- The two-level tree of claim C8: root `[10]`, leaves `[5]` and `[12]`. -/
def egTwoLevel : Node :=
  .mk 0 [10] none [some (leafN 1 5 (some 0)), some (leafN 2 12 (some 0)), none, none]

/-- A root with one key but three non-null child slots: the child in slot
2 (`nid = 3`) is beyond slot `num_keys_` and is never enqueued by the
validator. All stored parents are consistent. -/
def egSlotSkipped : Node :=
  .mk 0 [5] none
    [some (leafN 1 1 (some 0)), some (leafN 2 7 (some 0)), some (leafN 3 9 (some 0)), none]

/-- Like `egSlotSkipped`, but the never-visited child in slot 2 stores a
wrong parent pointer (`none` instead of the owner's id 0). -/
def egHiddenBadParent : Node :=
  .mk 0 [5] none
    [some (leafN 1 1 (some 0)), some (leafN 2 7 (some 0)), some (leafN 3 9 none), none]

/-- A single root node holding two equal adjacent keys. -/
def egEqualKeys : Node := .mk 0 [5, 5] none [none, none, none, none]

/-- A single root node holding strictly descending keys. -/
def egDescKeys : Node := .mk 0 [7, 3] none [none, none, none, none]

/-- A never-visited slot-2 subtree whose internal node `[5]` has a child
`[99]` violating the left-child key bound. -/
def egHiddenBoundBreak : Node :=
  .mk 0 [5] none
    [some (leafN 1 1 (some 0)), some (leafN 2 7 (some 0)),
     some (.mk 3 [5] (some 0) [some (leafN 4 99 (some 3)), none, none, none]), none]

/-- All per-child key bounds hold, but the first child stores a wrong
parent pointer. -/
def egBoundsOkBadParent : Node :=
  .mk 0 [5] none [some (leafN 1 3 none), some (leafN 2 7 (some 0)), none, none]

/-- A visited child whose last key 9 exceeds the separating key 5. -/
def egBadBound : Node :=
  .mk 0 [5] none [some (leafN 1 9 (some 0)), some (leafN 2 7 (some 0)), none, none]

/-- A key-less node owning a child: the validator's last-child check reads
`keys_[-1]`. -/
def egZeroKeyParent : Node :=
  .mk 0 [] none [some (leafN 1 4 (some 0)), none, none, none]

/-- A valid 2-3-4 shape whose root label `"[100, 200, 300]"` plus
separator is as wide (16 columns) as the four leaf spans combined, so the
render assertion `given_length > strlen` fails. -/
def egWideRoot : Node :=
  .mk 0 [100, 200, 300] none
    [some (leafN 1 1 (some 0)), some (leafN 2 2 (some 0)),
     some (leafN 3 3 (some 0)), some (leafN 4 4 (some 0))]

/-- A lone leaf, used to call the two layout helpers directly. -/
def egLoneLeaf : Node := leafN 9 1 none

/-!
## Infrastructure lemmas
-/

theorem getD_eq_some_mem {cs : List (Option Node)} {i : Nat} {c : Node}
    (h : cs.getD i none = some c) : some c ∈ cs := by
  induction cs generalizing i with
  | nil => simp at h
  | cons hd tl ih =>
    cases i with
    | zero => simp at h; simp [h]
    | succ i => simp only [List.getD_cons_succ] at h; exact List.mem_cons_of_mem _ (ih h)

theorem getD_eq_some_lt {cs : List (Option Node)} {i : Nat} {c : Node}
    (h : cs.getD i none = some c) : i < cs.length := by
  by_contra hge
  rw [List.getD_eq_default _ _ (by omega)] at h
  exact Option.noConfusion h

theorem mem_slotsIdx {cs : List (Option Node)} {k j : Nat} {pr : Nat × Node} :
    pr ∈ slotsIdx cs k j ↔ ∃ d, d < k ∧ pr.1 = j + d ∧ cs.getD d none = some pr.2 := by
  induction cs generalizing k j with
  | nil =>
    simp only [slotsIdx, List.not_mem_nil, false_iff]
    rintro ⟨d, -, -, hd⟩
    simp at hd
  | cons hd tl ih =>
    cases k with
    | zero => simp [slotsIdx]
    | succ k =>
      cases hd with
      | none =>
        rw [slotsIdx, ih]
        constructor
        · rintro ⟨d, hdk, hpr, hget⟩
          exact ⟨d + 1, by omega, by omega, by simpa using hget⟩
        · rintro ⟨d, hdk, hpr, hget⟩
          cases d with
          | zero => simp at hget
          | succ d => exact ⟨d, by omega, by omega, by simpa using hget⟩
      | some c =>
        rw [slotsIdx, List.mem_cons, ih]
        constructor
        · rintro (hpr | ⟨d, hdk, hpr, hget⟩)
          · exact ⟨0, by omega, by simp [hpr], by simp [hpr]⟩
          · exact ⟨d + 1, by omega, by omega, by simpa using hget⟩
        · rintro ⟨d, hdk, hpr, hget⟩
          cases d with
          | zero =>
            left
            simp only [List.getD_cons_zero] at hget
            obtain ⟨c1, c2⟩ := pr
            simp only at hpr
            cases hget
            simp [hpr]
          | succ d => right; exact ⟨d, by omega, by omega, by simpa using hget⟩

theorem mem_slotsUpTo {cs : List (Option Node)} {k : Nat} {c : Node} :
    c ∈ slotsUpTo cs k ↔ ∃ i, i < k ∧ cs.getD i none = some c := by
  simp only [slotsUpTo, List.mem_map]
  constructor
  · rintro ⟨⟨i, m⟩, hm, rfl⟩
    obtain ⟨d, hdk, hi, hget⟩ := mem_slotsIdx.mp hm
    exact ⟨d, hdk, hget⟩
  · rintro ⟨i, hik, hget⟩
    exact ⟨(i, c), mem_slotsIdx.mpr ⟨i, hik, by simp, hget⟩, rfl⟩

theorem mem_enqueuedChildren {n c : Node} :
    c ∈ enqueuedChildren n ↔ ∃ i, i < numKeys n + 1 ∧ childAt n i = some c := by
  simp only [enqueuedChildren, mem_slotsUpTo, childAt]

theorem mem_allChildren {n c : Node} :
    c ∈ allChildren n ↔ ∃ i, i < kMaxNumChildren ∧ childAt n i = some c := by
  simp only [allChildren, mem_slotsUpTo, childAt]

/-- With at most 4 child slots, the validator's child scan is contained in
the full child scan. -/
theorem enqueuedChildren_subset_allChildren {n : Node}
    (h : n.children.length ≤ kMaxNumChildren) {c : Node}
    (hc : c ∈ enqueuedChildren n) : c ∈ allChildren n := by
  obtain ⟨i, _, hget⟩ := mem_enqueuedChildren.mp hc
  have hlt : i < n.children.length := getD_eq_some_lt hget
  exact mem_allChildren.mpr ⟨i, by omega, hget⟩

theorem mem_dfsAllMany {l : List Node} {m : Node} :
    m ∈ dfsAllMany l ↔ ∃ c ∈ l, m ∈ dfsAll c := by
  induction l with
  | nil => simp [dfsAllMany]
  | cons n rest ih => rw [dfsAllMany]; simp [ih]

theorem mem_dfsAll_unfold {n m : Node} :
    m ∈ dfsAll n ↔ m = n ∨ ∃ c ∈ allChildren n, m ∈ dfsAll c := by
  rw [dfsAll]; simp [mem_dfsAllMany]

theorem self_mem_dfsAll (n : Node) : n ∈ dfsAll n := mem_dfsAll_unfold.mpr (Or.inl rfl)

theorem dfsAll_trans {n c m : Node} (hc : c ∈ allChildren n) (hm : m ∈ dfsAll c) :
    m ∈ dfsAll n := mem_dfsAll_unfold.mpr (Or.inr ⟨c, hc, hm⟩)

theorem mem_dfsReachMany {l : List Node} {m : Node} :
    m ∈ dfsReachMany l ↔ ∃ c ∈ l, m ∈ dfsReach c := by
  induction l with
  | nil => simp [dfsReachMany]
  | cons n rest ih => rw [dfsReachMany]; simp [ih]

theorem mem_dfsReach_unfold {n m : Node} :
    m ∈ dfsReach n ↔ m = n ∨ ∃ c ∈ enqueuedChildren n, m ∈ dfsReach c := by
  rw [dfsReach]; simp [mem_dfsReachMany]

theorem parentOk_iff {ep : Option Nat} {n : Node} :
    parentOk ep n = true ↔ parentViols ep n = [] := by
  by_cases h : ep = n.parent <;> simp [parentOk, parentViols, h]

theorem sortedOk_iff {n : Node} : sortedOk n = true ↔ sortedViols n = [] := by
  simp only [sortedOk, sortedViols, List.all_eq_true, List.filterMap_eq_nil_iff]
  constructor
  · intro h i hi
    have := h i hi
    simp only [Bool.not_eq_true', decide_eq_false_iff_not, not_lt] at this
    simp [not_lt.mpr this]
  · intro h i hi
    have := h i hi
    by_cases hgt : keyAt n (i - 1) > keyAt n i
    · simp [hgt] at this
    · simp [hgt]

theorem leftOk_iff {n : Node} : leftOk n = true ↔ leftViols n = [] := by
  simp only [leftOk, leftViols, List.all_eq_true, List.filterMap_eq_nil_iff]
  constructor
  · intro h i hi
    have := h i hi
    cases hc : childAt n i with
    | none => simp
    | some c =>
      rw [hc] at this
      simp only [Bool.not_eq_true', decide_eq_false_iff_not, not_lt] at this
      simp [not_lt.mpr this]
  · intro h i hi
    have := h i hi
    cases hc : childAt n i with
    | none => simp
    | some c =>
      rw [hc] at this
      by_cases hgt : keyAtI c ((numKeys c : Int) - 1) > keyAt n i
      · simp [hgt] at this
      · simp [hgt]

theorem lastOk_iff {n : Node} : lastOk n = true ↔ lastViols n = [] := by
  unfold lastOk lastViols
  cases hc : childAt n (numKeys n) with
  | none => simp
  | some c =>
    by_cases hlt : keyAtI c 0 < keyAtI n ((numKeys n : Int) - 1) <;> simp [hlt]

theorem countOk_iff {n : Node} : countOk n = true ↔ countViols n = [] := by
  unfold countOk countViols
  cases hl : isLeaf n <;> by_cases hc : numChildrenCounted n = numKeys n + 1 <;>
    simp [hl, hc]

theorem nodeOk_iff {ep : Option Nat} {n : Node} :
    nodeOk ep n = true ↔ nodeViols ep n = [] := by
  simp only [nodeOk, nodeViols, Bool.and_eq_true, List.append_eq_nil,
    parentOk_iff, sortedOk_iff, leftOk_iff, lastOk_iff, countOk_iff]

theorem rcOfPairs_eq_all (q : List (Option Nat × Node)) :
    rcOfPairs q = (traceOfPairs q).all (fun pr => nodeOk pr.1 pr.2) := by
  induction q using rcOfPairs.induct with
  | case1 => simp [rcOfPairs, traceOfPairs]
  | case2 ep n rest ih => simp [rcOfPairs, traceOfPairs, ih]

theorem violationsOfPairs_eq_nil (q : List (Option Nat × Node)) :
    violationsOfPairs q = [] ↔ ∀ pr ∈ traceOfPairs q, nodeViols pr.1 pr.2 = [] := by
  induction q using violationsOfPairs.induct with
  | case1 => simp [violationsOfPairs, traceOfPairs]
  | case2 ep n rest ih =>
    rw [violationsOfPairs, traceOfPairs]
    simp only [List.append_eq_nil, List.mem_cons, ih]
    constructor
    · rintro ⟨h1, h2⟩ pr (rfl | hpr)
      · exact h1
      · exact h2 pr hpr
    · intro h
      exact ⟨h _ (Or.inl rfl), fun pr hpr => h pr (Or.inr hpr)⟩

theorem rcOfPairs_iff_viols (q : List (Option Nat × Node)) :
    rcOfPairs q = true ↔ violationsOfPairs q = [] := by
  rw [rcOfPairs_eq_all, violationsOfPairs_eq_nil, List.all_eq_true]
  constructor
  · intro h pr hpr
    exact nodeOk_iff.mp (h pr hpr)
  · intro h pr hpr
    exact nodeOk_iff.mpr (h pr hpr)

theorem mem_traceOfPairs (q : List (Option Nat × Node)) (m : Node) :
    (∃ ep, (ep, m) ∈ traceOfPairs q) ↔ ∃ pr ∈ q, m ∈ dfsReach pr.2 := by
  induction q using traceOfPairs.induct with
  | case1 => simp [traceOfPairs]
  | case2 ep n rest ih =>
    rw [traceOfPairs]
    constructor
    · rintro ⟨e2, he2⟩
      rcases List.mem_cons.mp he2 with heq | htail
      · rw [Prod.mk.injEq] at heq
        exact ⟨(ep, n), List.mem_cons_self _ _, heq.2 ▸ mem_dfsReach_unfold.mpr (Or.inl rfl)⟩
      · obtain ⟨pr, hpr, hreach⟩ := ih.mp ⟨e2, htail⟩
        rcases List.mem_append.mp hpr with hl | hr
        · exact ⟨pr, List.mem_cons_of_mem _ hl, hreach⟩
        · obtain ⟨c, hc, rfl⟩ := List.mem_map.mp hr
          exact ⟨(ep, n), List.mem_cons_self _ _,
            mem_dfsReach_unfold.mpr (Or.inr ⟨c, hc, hreach⟩)⟩
    · rintro ⟨pr, hpr, hreach⟩
      rcases List.mem_cons.mp hpr with rfl | htail
      · rcases mem_dfsReach_unfold.mp hreach with rfl | ⟨c, hc, hcr⟩
        · exact ⟨ep, List.mem_cons_self _ _⟩
        · obtain ⟨e2, he2⟩ := ih.mpr ⟨(some n.nid, c),
            List.mem_append_right _ (List.mem_map.mpr ⟨c, hc, rfl⟩), hcr⟩
          exact ⟨e2, List.mem_cons_of_mem _ he2⟩
      · obtain ⟨e2, he2⟩ := ih.mpr ⟨pr, List.mem_append_left _ htail, hreach⟩
        exact ⟨e2, List.mem_cons_of_mem _ he2⟩

/-- Every popped pair is either an initial queue entry or was pushed while
processing an earlier popped node. -/
theorem traceOfPairs_src (q : List (Option Nat × Node)) :
    ∀ pr ∈ traceOfPairs q,
      pr ∈ q ∨ ∃ p, (∃ e2, (e2, p) ∈ traceOfPairs q) ∧ pr ∈ enqPairs p := by
  induction q using traceOfPairs.induct with
  | case1 => simp [traceOfPairs]
  | case2 ep n rest ih =>
    have htr : traceOfPairs ((ep, n) :: rest)
        = (ep, n) :: traceOfPairs (rest ++ enqPairs n) := by rw [traceOfPairs]
    rw [htr]
    intro pr hpr
    rcases List.mem_cons.mp hpr with rfl | htail
    · exact Or.inl (List.mem_cons_self _ _)
    · rcases ih pr htail with hq | ⟨p, ⟨e2, he2⟩, henq⟩
      · rcases List.mem_append.mp hq with hl | hr
        · exact Or.inl (List.mem_cons_of_mem _ hl)
        · exact Or.inr ⟨n, ⟨ep, List.mem_cons_self _ _⟩, hr⟩
      · exact Or.inr ⟨p, ⟨e2, List.mem_cons_of_mem _ he2⟩, henq⟩

/-!
## Claims C1-C4: the validator
-/

/-- C1, amended.  `validate()` never halts at the first violation: it
walks breadth-first, visiting exactly the nodes reachable through child
slots `0 .. num_keys_` of visited nodes (a child stored beyond slot
`num_keys_` is not visited — see the counterexample), accumulates and
reports every violation detected at the visited nodes, and returns a
single boolean that is `false` iff at least one violation was found.  The
first conjunct relates the returned boolean to the accumulated report
list; the second characterises the visited node set. -/
theorem validate_false_iff_viols_and_visits (t : Node) :
    (validateRelationships t = false ↔ validateViolations t ≠ []) ∧
    (∀ m : Node, (∃ ep, (ep, m) ∈ validateTrace t) ↔ m ∈ dfsReach t) := by
  constructor
  · rw [validateRelationships, validateViolations]
    have h := rcOfPairs_iff_viols [(none, t)]
    constructor
    · intro hf hv
      have := h.mpr hv
      rw [this] at hf
      exact Bool.noConfusion hf
    · intro hv
      by_contra hne
      have htrue : rcOfPairs [(none, t)] = true := by
        cases hb : rcOfPairs [(none, t)] with
        | true => rfl
        | false => exact absurd hb hne
      exact hv (h.mp htrue)
  · intro m
    simpa [validateTrace] using mem_traceOfPairs [(none, t)] m

/-- C1 witness: the two parts of the theorem instantiated at a concrete
tree. -/
theorem validate_false_iff_viols_and_visits_witness :
    (validateRelationships egSlotSkipped = false ↔ validateViolations egSlotSkipped ≠ []) ∧
    ((∃ ep, (ep, egSlotSkipped) ∈ validateTrace egSlotSkipped)
      ↔ egSlotSkipped ∈ dfsReach egSlotSkipped) :=
  ⟨(validate_false_iff_viols_and_visits egSlotSkipped).1,
   (validate_false_iff_viols_and_visits egSlotSkipped).2 egSlotSkipped⟩

/-- C1 counterexample: `egSlotSkipped` stores a child (node id 3) in slot
2 while holding only one key; that node belongs to the tree but the
validator's breadth-first walk never visits it, refuting "it visits every
node". -/
theorem validate_misses_node_beyond_numKeys :
    (dfsAll egSlotSkipped).any (fun m => decide (m.nid = 3)) = true ∧
    (validateTrace egSlotSkipped).all (fun pr => decide (pr.2.nid ≠ 3)) = true := by
  constructor
  · simp [dfsAll, dfsAllMany, allChildren, slotsUpTo, slotsIdx, kMaxNumChildren,
      egSlotSkipped, leafN, Node.children, Node.nid]
  · simp [validateTrace, traceOfPairs, enqPairs, enqueuedChildren, slotsUpTo, slotsIdx,
      numKeys, egSlotSkipped, leafN, Node.children, Node.keys, Node.nid]

/-- C2, amended.  `validate()` checks each visited node's stored parent
back-reference against the parent pair that reached it in the
breadth-first walk — `nullptr` for the root seed, and the enqueuing owner
for every other visited pair — and returns `false` whenever some visited
node's stored back-reference differs from it.  (A node sitting in a child
slot beyond its owner's key count is never visited, so its stored
back-reference is not checked — see the counterexample.) -/
theorem validate_parent_checks (t : Node) :
    ((validateTrace t).head? = some (none, t)) ∧
    (∀ ep n, (ep, n) ∈ validateTrace t → n.parent ≠ ep → validateRelationships t = false) ∧
    (∀ pr ∈ validateTrace t, pr = (none, t) ∨
      ∃ p i, (∃ e2, (e2, p) ∈ validateTrace t) ∧ i < numKeys p + 1 ∧
        childAt p i = some pr.2 ∧ pr.1 = some p.nid) := by
  refine ⟨?_, ?_, ?_⟩
  · rw [validateTrace, traceOfPairs]
    rfl
  · intro ep n hmem hne
    by_contra hne2
    have htrue : validateRelationships t = true := by
      cases hb : validateRelationships t with
      | true => rfl
      | false => exact absurd hb hne2
    rw [validateRelationships, rcOfPairs_eq_all] at htrue
    have hok := List.all_eq_true.mp htrue (ep, n) hmem
    simp only [nodeOk, Bool.and_eq_true, parentOk, decide_eq_true_eq] at hok
    exact hne hok.1.1.1.1.symm
  · intro pr hpr
    rcases traceOfPairs_src [(none, t)] pr hpr with hq | ⟨p, hp, henq⟩
    · simp only [List.mem_singleton] at hq
      exact Or.inl hq
    · right
      obtain ⟨c, hc, rfl⟩ := List.mem_map.mp henq
      obtain ⟨i, hik, hci⟩ := mem_enqueuedChildren.mp hc
      exact ⟨p, i, hp, hik, hci, rfl⟩

/-- C2 witness: in `egBoundsOkBadParent` the first child is visited with
expected parent id 0 but stores `none`; the theorem yields
`validate() = false`. -/
theorem validate_parent_checks_witness :
    validateRelationships egBoundsOkBadParent = false :=
  (validate_parent_checks egBoundsOkBadParent).2.1 (some 0) (leafN 1 3 none)
    (by simp [validateTrace, traceOfPairs, enqPairs, enqueuedChildren, slotsUpTo, slotsIdx,
          numKeys, egBoundsOkBadParent, leafN, Node.children, Node.keys, Node.nid])
    (by simp [leafN, Node.parent])

/-- C2 counterexample: in `egHiddenBadParent` the child with node id 3 is
owned by the root (slot 2) but stores parent `none`; the claim as stated
then demands `validate() = false`, yet the walk never visits slot 2
(the root holds one key) and `validate()` returns `true`. -/
theorem validate_true_despite_bad_stored_parent :
    (childAt egHiddenBadParent 2 = some (leafN 3 9 none)) ∧
    ((leafN 3 9 none).parent = none) ∧
    validateRelationships egHiddenBadParent = true := by
  refine ⟨by simp [childAt, egHiddenBadParent, Node.children], by simp [leafN, Node.parent], ?_⟩
  simp [validateRelationships, rcOfPairs, nodeOk, parentOk, sortedOk, leftOk, lastOk,
    countOk, sortedIdx, numKeys, keyAt, keyAtI, childAt, isLeaf, numChildrenCounted,
    enqueuedChildren, enqPairs, slotsUpTo, slotsIdx, egHiddenBadParent, leafN,
    Node.nid, Node.keys, Node.parent, Node.children, kMaxNumChildren]

/-- C3, amended.  `validate()` returns `false` whenever some visited node
holds two adjacent keys in strictly descending order (`keys_[i-1] >
keys_[i]`).  Two equal adjacent keys are not flagged — the code only
checks `>` — see the counterexample. -/
theorem validate_flags_descending_adjacent_keys (t : Node) :
    ∀ ep n, (ep, n) ∈ validateTrace t → ∀ i, 1 ≤ i → i < numKeys n →
      keyAt n (i - 1) > keyAt n i → validateRelationships t = false := by
  intro ep n hmem i h1 h2 hgt
  by_contra hne2
  have htrue : validateRelationships t = true := by
    cases hb : validateRelationships t with
    | true => rfl
    | false => exact absurd hb hne2
  rw [validateRelationships, rcOfPairs_eq_all] at htrue
  have hok := List.all_eq_true.mp htrue (ep, n) hmem
  simp only [nodeOk, Bool.and_eq_true] at hok
  have hs := hok.1.1.1.2
  rw [sortedOk, List.all_eq_true] at hs
  have hi : i ∈ sortedIdx n := by
    rw [sortedIdx, List.mem_range'_1]
    omega
  have := hs i hi
  simp only [Bool.not_eq_true', decide_eq_false_iff_not, not_lt] at this
  omega

/-- C3 witness: the root `[7, 3]` holds a strictly descending adjacent
pair, and `validate()` is `false` on it. -/
theorem validate_flags_descending_adjacent_keys_witness :
    validateRelationships egDescKeys = false :=
  validate_flags_descending_adjacent_keys egDescKeys none egDescKeys
    (by rw [validateTrace, traceOfPairs]; exact List.mem_cons_self _ _)
    1 (by decide)
    (by simp [numKeys, egDescKeys, Node.keys])
    (by simp [keyAt, egDescKeys, Node.keys])

/-- C3 counterexample: the single root node `[5, 5]` holds two equal
adjacent keys — not in strictly ascending order — yet `validate()`
returns `true`, because line 63 only flags `keys_[i-1] > keys_[i]`. -/
theorem validate_true_on_equal_adjacent_keys :
    (egEqualKeys.keys = [5, 5]) ∧ validateRelationships egEqualKeys = true := by
  refine ⟨by simp [egEqualKeys, Node.keys], ?_⟩
  simp [validateRelationships, rcOfPairs, nodeOk, parentOk, sortedOk, leftOk, lastOk,
    countOk, sortedIdx, numKeys, keyAt, keyAtI, childAt, isLeaf, numChildrenCounted,
    enqueuedChildren, enqPairs, slotsUpTo, slotsIdx, egEqualKeys,
    Node.nid, Node.keys, Node.parent, Node.children, kMaxNumChildren]
  all_goals decide

/-- C4, amended.  For the nodes the walk visits: a non-null child at slot
`i < num_keys_` whose last key (the maximum when the child is sorted)
exceeds `keys_[i]` forces `validate() = false`, and a non-null child at
slot `num_keys_` whose first key (the minimum when sorted) is below
`keys_[num_keys_-1]` forces `validate() = false`; and `validate()` is
`true` exactly when every visited node passes all of its checks (parent
back-reference, key order, child bounds, child count) — the per-child
bounds alone do not suffice, see the counterexample. -/
theorem validate_child_bound_checks (t : Node) :
    (∀ ep n, (ep, n) ∈ validateTrace t → ∀ i c, i < numKeys n → childAt n i = some c →
      keyAtI c ((numKeys c : Int) - 1) > keyAt n i → validateRelationships t = false) ∧
    (∀ ep n, (ep, n) ∈ validateTrace t → ∀ c, childAt n (numKeys n) = some c →
      keyAtI c 0 < keyAtI n ((numKeys n : Int) - 1) → validateRelationships t = false) ∧
    (validateRelationships t = true ↔
      ∀ pr ∈ validateTrace t, nodeOk pr.1 pr.2 = true) := by
  have hchar : validateRelationships t = true ↔
      ∀ pr ∈ validateTrace t, nodeOk pr.1 pr.2 = true := by
    rw [validateRelationships, rcOfPairs_eq_all, List.all_eq_true, validateTrace]
  refine ⟨?_, ?_, hchar⟩
  · intro ep n hmem i c hik hci hgt
    by_contra hne2
    have htrue : validateRelationships t = true := by
      cases hb : validateRelationships t with
      | true => rfl
      | false => exact absurd hb hne2
    have hok := hchar.mp htrue (ep, n) hmem
    simp only [nodeOk, Bool.and_eq_true] at hok
    have hleft := hok.1.1.2
    rw [leftOk, List.all_eq_true] at hleft
    have := hleft i (List.mem_range.mpr hik)
    rw [hci] at this
    simp only [Bool.not_eq_true', decide_eq_false_iff_not, not_lt] at this
    omega
  · intro ep n hmem c hci hlt
    by_contra hne2
    have htrue : validateRelationships t = true := by
      cases hb : validateRelationships t with
      | true => rfl
      | false => exact absurd hb hne2
    have hok := hchar.mp htrue (ep, n) hmem
    simp only [nodeOk, Bool.and_eq_true] at hok
    have hlast := hok.1.2
    rw [lastOk, hci] at hlast
    simp only [Bool.not_eq_true', decide_eq_false_iff_not, not_lt] at hlast
    omega

/-- C4 witness: in `egBadBound` the first child `[9]` is visited and its
last key 9 exceeds the separating key 5; the theorem yields
`validate() = false`. -/
theorem validate_child_bound_checks_witness :
    validateRelationships egBadBound = false :=
  (validate_child_bound_checks egBadBound).1 none egBadBound
    (by rw [validateTrace, traceOfPairs]; exact List.mem_cons_self _ _)
    0 (leafN 1 9 (some 0))
    (by simp [numKeys, egBadBound, Node.keys])
    (by simp [childAt, egBadBound, Node.children])
    (by simp [keyAtI, keyAt, numKeys, egBadBound, leafN, Node.keys])

/-- C4 counterexample, both directions of the claim as stated.  First:
in `egHiddenBoundBreak` the per-child bound of the claim is violated (the
internal node id 3 has a child whose maximum key 99 exceeds its key 5),
yet `validate()` returns `true`, because that node sits in slot 2 of a
one-key root and is never visited.  Second: in `egBoundsOkBadParent`
every per-child bound of the claim holds, yet `validate()` returns
`false` (a stored parent back-reference is wrong), refuting "it returns
true on trees where these per-child bounds all hold". -/
theorem validate_bounds_claim_fails_both_ways :
    (claimBoundsHold egHiddenBoundBreak = false ∧
      validateRelationships egHiddenBoundBreak = true) ∧
    (claimBoundsHold egBoundsOkBadParent = true ∧
      validateRelationships egBoundsOkBadParent = false) := by
  refine ⟨⟨?_, ?_⟩, ⟨?_, ?_⟩⟩
  · simp [claimBoundsHold, dfsAll, dfsAllMany, allChildren, slotsUpTo, slotsIdx,
      kMaxNumChildren, numKeys, keyAt, childAt, egHiddenBoundBreak, leafN,
      Node.children, Node.keys, Node.nid]
  · simp [validateRelationships, rcOfPairs, nodeOk, parentOk, sortedOk, leftOk, lastOk,
      countOk, sortedIdx, numKeys, keyAt, keyAtI, childAt, isLeaf, numChildrenCounted,
      enqueuedChildren, enqPairs, slotsUpTo, slotsIdx, egHiddenBoundBreak, leafN,
      Node.nid, Node.keys, Node.parent, Node.children, kMaxNumChildren]
  · simp [claimBoundsHold, dfsAll, dfsAllMany, allChildren, slotsUpTo, slotsIdx,
      kMaxNumChildren, numKeys, keyAt, childAt, egBoundsOkBadParent, leafN,
      Node.children, Node.keys, Node.nid]
  · simp [validateRelationships, rcOfPairs, nodeOk, parentOk, sortedOk, leftOk, lastOk,
      countOk, sortedIdx, numKeys, keyAt, keyAtI, childAt, isLeaf, numChildrenCounted,
      enqueuedChildren, enqPairs, slotsUpTo, slotsIdx, egBoundsOkBadParent, leafN,
      Node.nid, Node.keys, Node.parent, Node.children, kMaxNumChildren]

/-!
## Claim C9: bounds of the validator's key-array reads
-/

theorem nodeAccesses_bounds {n : Node}
    (h1 : hasChild n = true → 1 ≤ numKeys n)
    (h2 : ∀ c : Node, some c ∈ n.children → 1 ≤ numKeys c) :
    ∀ a ∈ nodeAccesses n, accessInBounds a = true := by
  intro a ha
  rw [nodeAccesses] at ha
  rcases List.mem_append.mp ha with ha' | hlast
  · rcases List.mem_append.mp ha' with hsort | hleft
    · obtain ⟨i, hi, hmem⟩ := List.mem_flatMap.mp hsort
      rw [sortedIdx, List.mem_range'_1] at hi
      rcases List.mem_cons.mp hmem with rfl | hmem'
      · simp only [accessInBounds, decide_eq_true_eq]
        omega
      · rcases List.mem_cons.mp hmem' with rfl | h
        · simp only [accessInBounds, decide_eq_true_eq]
          omega
        · simp at h
    · obtain ⟨i, hi, hmem⟩ := List.mem_flatMap.mp hleft
      rw [List.mem_range] at hi
      cases hc : childAt n i with
      | none => rw [hc] at hmem; simp at hmem
      | some c =>
        rw [hc] at hmem
        have hck : 1 ≤ numKeys c := h2 c (getD_eq_some_mem hc)
        rcases List.mem_cons.mp hmem with rfl | hmem'
        · simp only [accessInBounds, decide_eq_true_eq]
          omega
        · rcases List.mem_cons.mp hmem' with rfl | h
          · simp only [accessInBounds, decide_eq_true_eq]
            omega
          · simp at h
  · cases hc : childAt n (numKeys n) with
    | none => rw [hc] at hlast; simp at hlast
    | some c =>
      rw [hc] at hlast
      have hck : 1 ≤ numKeys c := h2 c (getD_eq_some_mem hc)
      have hch : hasChild n = true := by
        rw [hasChild, List.any_eq_true]
        exact ⟨some c, getD_eq_some_mem hc, rfl⟩
      have hnk : 1 ≤ numKeys n := h1 hch
      rcases List.mem_cons.mp hlast with rfl | hmem'
      · simp only [accessInBounds, decide_eq_true_eq]
        omega
      · rcases List.mem_cons.mp hmem' with rfl | h
        · simp only [accessInBounds, decide_eq_true_eq]
          omega
        · simp at h

theorem accessesOfPairs_bounds (q : List (Option Nat × Node))
    (hq : ∀ pr ∈ q, ∀ m ∈ dfsAll pr.2,
      (hasChild m = true → 1 ≤ numKeys m) ∧
      (∀ c : Node, some c ∈ m.children → 1 ≤ numKeys c) ∧
      m.children.length ≤ kMaxNumChildren) :
    ∀ a ∈ accessesOfPairs q, accessInBounds a = true := by
  induction q using accessesOfPairs.induct with
  | case1 => simp [accessesOfPairs]
  | case2 ep n rest ih =>
    rw [accessesOfPairs]
    intro a ha
    have hn := hq (ep, n) (List.mem_cons_self _ _) n (self_mem_dfsAll n)
    rcases List.mem_append.mp ha with hhead | htail
    · exact nodeAccesses_bounds hn.1 hn.2.1 a hhead
    · refine ih ?_ a htail
      intro pr hpr
      rcases List.mem_append.mp hpr with hrest | hpush
      · exact hq pr (List.mem_cons_of_mem _ hrest)
      · obtain ⟨c, hc, rfl⟩ := List.mem_map.mp hpush
        intro m hm
        have hcAll : c ∈ allChildren n := enqueuedChildren_subset_allChildren hn.2.2 hc
        exact hq (ep, n) (List.mem_cons_self _ _) m (dfsAll_trans hcAll hm)

/-- C9.  Under the claim's precondition — every node that has at least one
child holds at least one key, and every non-null child holds at least one
key — all `keys_` reads of `validateRelationships` (the adjacent-key
reads, `keys_[child->num_keys_-1]` and `keys_[0]` of a checked child, and
`keys_[num_keys_-1]` of a visited node) stay within `[0, num_keys_)` of
the node they read.  Without the precondition, a key-less node owning a
child makes the last-child check read index `-1`: in `egZeroKeyParent`
the validator reads `(node id 0, num_keys_ 0, index -1)`. -/
theorem validate_accesses_in_bounds :
    (∀ t : Node, slotsFit t = true → keysPrecond t = true →
      (validateAccesses t).all accessInBounds = true) ∧
    ((0, 0, -1) ∈ validateAccesses egZeroKeyParent) := by
  constructor
  · intro t hfit hpre
    rw [validateAccesses]
    rw [List.all_eq_true]
    refine accessesOfPairs_bounds _ ?_
    intro pr hpr m hm
    simp only [List.mem_singleton] at hpr
    subst hpr
    rw [slotsFit, List.all_eq_true] at hfit
    rw [keysPrecond, List.all_eq_true] at hpre
    have h1 := hfit m hm
    have h2 := hpre m hm
    simp only [Bool.and_eq_true, Bool.or_eq_true, Bool.not_eq_true', decide_eq_true_eq,
      List.all_eq_true] at h1 h2
    refine ⟨?_, ?_, h1⟩
    · intro hch
      rcases h2.1 with hno | hk
      · rw [hch] at hno; exact Bool.noConfusion hno
      · exact hk
    · intro c hcmem
      have := h2.2 (some c) hcmem
      simpa using this
  · rw [validateAccesses, accessesOfPairs]
    simp [nodeAccesses, sortedIdx, numKeys, childAt, egZeroKeyParent, leafN,
      Node.children, Node.keys, Node.nid]

/-- C9 witness: the general bound applied at the concrete two-level tree
`egTwoLevel`, whose nodes all satisfy the precondition. -/
theorem validate_accesses_in_bounds_witness :
    (validateAccesses egTwoLevel).all accessInBounds = true :=
  validate_accesses_in_bounds.1 egTwoLevel
    (by simp [slotsFit, dfsAll, dfsAllMany, allChildren, slotsUpTo, slotsIdx,
      kMaxNumChildren, egTwoLevel, leafN, Node.children])
    (by simp [keysPrecond, dfsAll, dfsAllMany, allChildren, slotsUpTo, slotsIdx,
      kMaxNumChildren, hasChild, numKeys, egTwoLevel, leafN, Node.children, Node.keys])

/-!
## Claim C6: the node label format
-/

/-- C6.  For every node (holding at most the 3 keys its `keys_` array can
store), the printed label is the keys in stored order separated by
`", "`, enclosed in square brackets; a node with zero keys prints
exactly `"[]"`. -/
theorem getString_format (n : Node) (h : numKeys n ≤ 3) :
    getString n = "[" ++ sepJoin (n.keys.map toString) ++ "]" := by
  obtain ⟨i, ks, p, cs⟩ := n
  simp only [numKeys, Node.keys] at h ⊢
  match ks, h with
  | [], _ =>
    simp [getString, numKeys, keyAt, sepJoin, Node.keys, List.range',
      String.join, String.append_assoc]
  | [a], _ =>
    simp [getString, numKeys, keyAt, sepJoin, Node.keys, List.range',
      String.join, String.append_assoc]
  | [a, b], _ =>
    simp [getString, numKeys, keyAt, sepJoin, Node.keys, List.range',
      String.join, String.append_assoc]
  | [a, b, c], _ =>
    simp [getString, numKeys, keyAt, sepJoin, Node.keys, List.range',
      String.join, String.append_assoc]

/-- C6 witness: the label of the two-key node `[5, 12]`. -/
theorem getString_format_witness :
    getString (.mk 7 [5, 12] none [none, none, none, none])
      = "[" ++ sepJoin ([(5 : Int), 12].map toString) ++ "]" :=
  getString_format (.mk 7 [5, 12] none [none, none, none, none]) (by decide)

/-!
## Claim C5: the missing-offset branch of the layout helpers
-/

/-- C5.  When `SetBeginLocation` or `SetEndLocation` is invoked for a node
with no entry in the `offsets` map, the code prints `"logic error"`
(the diagnostic counter below) and returns normally from the helper with
the map unchanged; the enclosing rendering then simply continues — there
is no abort of the rendering operation, contrary to the spec's
requirement. -/
theorem setLocation_missing_entry_returns :
    SetBeginLocation [] [] egLoneLeaf 0 = ([], 1) ∧
    SetEndLocation [] [] egLoneLeaf 7 = ([], 1) := by
  constructor <;> decide

/-!
## Claim C7: the per-node emissions of the render pass
-/

/-- C7, amended.  In the render pass every leaf prints its label followed
by one separator space.  Every internal node is centered using the
label-plus-separator string (length `label + 1`), not the bare label:
writing `g` for the recorded span (`end - begin` as `unsigned int`) and
`s = label + 1`, it prints `g/2 + s/2 - s` spaces, then the label and its
separator space, then `(g/2 - s/2) - 1` spaces, then one space (integer
division throughout; the code emits `setw(g/2 + s/2)` of the
label-plus-separator and `setw(g/2 - s/2)` of one space). -/
theorem renderNode_emission (mp : OffMap) (n : Node) (l : Loc)
    (hl : lookupOff mp n.nid = some l) :
    (isLeaf n = true → renderNode mp n = some (getString n ++ " ")) ∧
    (isLeaf n = false →
      labelLen n + 1 < ((l.e - l.b).emod (2 ^ 32)).toNat →
      renderNode mp n = some (
        mkSpaces (((l.e - l.b).emod (2 ^ 32)).toNat / 2 + (labelLen n + 1) / 2
            - (labelLen n + 1))
          ++ (getString n ++ " ")
          ++ (mkSpaces ((((l.e - l.b).emod (2 ^ 32)).toNat / 2 - (labelLen n + 1) / 2) - 1)
          ++ " "))) := by
  have hlen : (getString n ++ " ").length = labelLen n + 1 := by
    rw [String.length_append]
    rfl
  constructor
  · intro hleaf
    rw [renderNode, if_pos hleaf]
  · intro hleaf hlt
    rw [renderNode, if_neg (by rw [hleaf]; exact Bool.noConfusion)]
    simp only [hl, Option.getD_some, hlen]
    rw [if_pos hlt]
    rw [padLeft, padLeft, hlen]
    rfl

/-- C7 witness: the amended emission applied to the root `[10]` of the
example tree with recorded offsets `(0, 9)`, together with the leaf
emission for the leaf `[5]`. -/
theorem renderNode_emission_witness :
    (renderNode [(0, Loc.mk 0 9)] egTwoLevel = some (
      mkSpaces (((((Loc.mk 0 9).e - (Loc.mk 0 9).b).emod (2 ^ 32)).toNat) / 2
          + (labelLen egTwoLevel + 1) / 2 - (labelLen egTwoLevel + 1))
        ++ (getString egTwoLevel ++ " ")
        ++ (mkSpaces ((((((Loc.mk 0 9).e - (Loc.mk 0 9).b).emod (2 ^ 32)).toNat) / 2
          - (labelLen egTwoLevel + 1) / 2) - 1)
        ++ " "))) ∧
    (renderNode [(1, Loc.mk 0 4)] (leafN 1 5 (some 0))
      = some (getString (leafN 1 5 (some 0)) ++ " ")) :=
  ⟨(renderNode_emission [(0, Loc.mk 0 9)] egTwoLevel (Loc.mk 0 9) (by decide)).2
      (by decide) (by decide),
   (renderNode_emission [(1, Loc.mk 0 4)] (leafN 1 5 (some 0)) (Loc.mk 0 4) (by decide)).1
      (by decide)⟩

/-- C7 counterexample: for the internal node `[10]` with recorded span
`(0, 9)` the code emits `" [10]   "` (it right-aligns the
label-plus-separator `"[10] "` in a field of `9/2 + 5/2 = 6`), while the
claim's formula — the bare label with left-padding `span/2 + label/2 = 6`
and right-padding `span/2 - label/2 = 2` — yields `"  [10]  "`. -/
theorem renderNode_claim_formula_differs :
    renderNode [(0, Loc.mk 0 9)] egTwoLevel
      ≠ some (claimInternalEmission egTwoLevel (Loc.mk 0 9)) := by
  decide

/-!
## Claim C8: the example rendering
-/

/-- C8, amended.  On the two-level tree with root `[10]` and leaves `[5]`,
`[12]`, the renderer produces the two content lines followed by one extra
trailing newline (a final blank line from the closing `std::endl`): the
leaf line is `"[5] "` then `"[12] "` — each label followed by its
separator, 9 columns in all — and above it the root label is printed in
the 8-column field `" [10]   "` = 2·(9/2) columns computed from the
recorded 9-column span. -/
theorem getStringAll_twoLevel :
    getStringAll egTwoLevel
      = some ((" [10]   " ++ "\n") ++ (("[5] " ++ "[12] ") ++ "\n") ++ "\n") := by
  simp [getStringAll, pass1Go, pass2Go, pass1Step, levelChildren, renderLevel, renderNode,
    SetBeginLocation, SetEndLocation, lookupOff, emplaceOff, setB, setE, labelLen,
    getString, numKeys, keyAt, childAt, isLeaf, allChildren, slotsUpTo, slotsIdx,
    kMaxNumChildren, pass1Offsets, egTwoLevel, leafN, Node.nid, Node.keys, Node.parent,
    Node.children, padLeft, mkSpaces]
  all_goals decide

/-- C8 counterexample to "exactly two lines": the produced text contains
three newline characters — two content lines each ending in `'\n'` plus a
trailing empty line — so it is not a two-line text (which would contain
at most two newlines). -/
theorem getStringAll_twoLevel_three_newlines :
    ((getStringAll egTwoLevel).getD "").data.count '\n' = 3 := by
  simp [getStringAll, pass1Go, pass2Go, pass1Step, levelChildren, renderLevel, renderNode,
    SetBeginLocation, SetEndLocation, lookupOff, emplaceOff, setB, setE, labelLen,
    getString, numKeys, keyAt, childAt, isLeaf, allChildren, slotsUpTo, slotsIdx,
    kMaxNumChildren, pass1Offsets, egTwoLevel, leafN, Node.nid, Node.keys, Node.parent,
    Node.children, padLeft, mkSpaces]
  all_goals decide

/-!
## Claim C10: the render assertion
-/

theorem renderNode_none_iff (m : OffMap) (n : Node) :
    renderNode m n = none ↔ (isLeaf n = false ∧
      (((((lookupOff m n.nid).getD (Loc.mk 0 0)).e
        - ((lookupOff m n.nid).getD (Loc.mk 0 0)).b).emod (2 ^ 32)).toNat
          ≤ labelLen n + 1)) := by
  have hlen : (getString n ++ " ").length = labelLen n + 1 := by
    rw [String.length_append]
    rfl
  rw [renderNode]
  cases hleaf : isLeaf n with
  | true => simp
  | false =>
    simp only [Bool.false_eq_true, if_false, hlen, true_and]
    by_cases hlt : labelLen n + 1 <
        (((((lookupOff m n.nid).getD (Loc.mk 0 0)).e
          - ((lookupOff m n.nid).getD (Loc.mk 0 0)).b).emod (2 ^ 32)).toNat)
    · rw [if_pos hlt]
      constructor
      · intro hx
        exact Option.noConfusion hx
      · intro hle
        exact absurd hlt (by omega)
    · rw [if_neg hlt]
      constructor
      · intro _
        omega
      · intro _
        rfl

theorem renderLevel_none_iff (m : OffMap) (lvl : List Node) :
    renderLevel m lvl = none ↔ ∃ n ∈ lvl, renderNode m n = none := by
  induction lvl with
  | nil => simp [renderLevel]
  | cons n rest ih =>
    rw [renderLevel]
    cases h : renderNode m n with
    | none =>
      simp only [List.mem_cons]
      exact ⟨fun _ => ⟨n, Or.inl rfl, h⟩, fun _ => by trivial⟩
    | some s =>
      cases h2 : renderLevel m rest with
      | none =>
        obtain ⟨x, hx, hnone⟩ := ih.mp h2
        simp only [List.mem_cons]
        exact ⟨fun _ => ⟨x, Or.inr hx, hnone⟩, fun _ => by trivial⟩
      | some r =>
        simp only [List.mem_cons]
        constructor
        · intro hx
          exact Option.noConfusion hx
        · rintro ⟨x, (rfl | hx), hnone⟩
          · rw [h] at hnone; exact Option.noConfusion hnone
          · have hcontra := ih.mpr ⟨x, hx, hnone⟩
            rw [h2] at hcontra
            exact Option.noConfusion hcontra

theorem pass2Go_none_iff (m : OffMap) (lvl : List Node) :
    pass2Go m lvl = none ↔ ∃ n ∈ bfsNodes lvl, renderNode m n = none := by
  induction lvl using pass2Go.induct m with
  | case1 => simp [pass2Go, bfsNodes]
  | case2 n rest hlev =>
    obtain ⟨x, hx, hnone⟩ := (renderLevel_none_iff m (n :: rest)).mp hlev
    rw [pass2Go, bfsNodes]
    simp only [hlev, List.mem_append, List.mem_cons]
    exact ⟨fun _ => ⟨x, by simpa using Or.inl hx, hnone⟩, fun _ => by trivial⟩
  | case3 n rest r hlev hrec ih =>
    obtain ⟨x, hx, hnone⟩ := ih.mp hrec
    rw [pass2Go, bfsNodes]
    simp only [hlev, hrec, List.mem_append, List.mem_cons]
    exact ⟨fun _ => ⟨x, by simpa using Or.inr hx, hnone⟩, fun _ => by trivial⟩
  | case4 n rest r hlev r2 hrec ih =>
    rw [pass2Go, bfsNodes]
    simp only [hlev, hrec, List.mem_append, List.mem_cons]
    constructor
    · intro hx
      exact Option.noConfusion hx
    · rintro ⟨x, (hx | hx), hnone⟩
      · have hlv := (renderLevel_none_iff m (n :: rest)).mpr ⟨x, by simpa using hx, hnone⟩
        rw [hlev] at hlv
        exact Option.noConfusion hlv
      · have hcontra := ih.mpr ⟨x, hx, hnone⟩
        rw [hrec] at hcontra
        exact Option.noConfusion hcontra

/-- C10.  Pass 2 asserts `given_length > strlen` — span strictly greater
than label length plus one — at every internal node.  Whenever pass 1
leaves some internal node with a span not exceeding its own label width,
the rendering aborts through that assertion; and the assertion's failure
branch fires on a tree exactly when some internal node's measured span
fails to exceed its label length plus one (equivalently: it is
unreachable exactly when every internal node's span strictly exceeds
label length plus one).  The hypothesis confines the recorded spans to
`[0, 2^32)`, the range on which the `unsigned int` conversion of
`end - begin` is the identity. -/
theorem render_assert_abort_iff (t : Node)
    (hs : ∀ n ∈ internalsList t, 0 ≤ spanOf t n ∧ spanOf t n < 2 ^ 32) :
    ((∃ n ∈ internalsList t, spanOf t n ≤ (labelLen n : Int)) → getStringAll t = none) ∧
    (getStringAll t = none ↔ ∃ n ∈ internalsList t, spanOf t n ≤ (labelLen n : Int) + 1) := by
  have hiff : getStringAll t = none ↔
      ∃ n ∈ internalsList t, spanOf t n ≤ (labelLen n : Int) + 1 := by
    rw [getStringAll, Option.map_eq_none']
    have hmap : (pass1Go [([], t)] [] 0).1 = pass1Offsets t := rfl
    rw [hmap, pass2Go_none_iff]
    constructor
    · rintro ⟨n, hn, hnone⟩
      obtain ⟨hleaf, hle⟩ := (renderNode_none_iff _ n).mp hnone
      have hmem : n ∈ internalsList t := by
        rw [internalsList, List.mem_filter]
        exact ⟨hn, by rw [hleaf]; rfl⟩
      refine ⟨n, hmem, ?_⟩
      obtain ⟨hs0, hs1⟩ := hs n hmem
      rw [spanOf] at hs0 hs1 ⊢
      rw [locOf] at hs0 hs1 ⊢
      have hmodeq : (((lookupOff (pass1Offsets t) n.nid).getD (Loc.mk 0 0)).e
          - ((lookupOff (pass1Offsets t) n.nid).getD (Loc.mk 0 0)).b).emod (2 ^ 32)
          = ((lookupOff (pass1Offsets t) n.nid).getD (Loc.mk 0 0)).e
          - ((lookupOff (pass1Offsets t) n.nid).getD (Loc.mk 0 0)).b :=
        Int.emod_eq_of_lt hs0 hs1
      rw [hmodeq] at hle
      omega
    · rintro ⟨n, hn, hle⟩
      have hn' : n ∈ bfsNodes [t] := (List.mem_filter.mp hn).1
      have hleaf : isLeaf n = false := by
        have := (List.mem_filter.mp hn).2
        simpa using this
      refine ⟨n, hn', ?_⟩
      rw [renderNode_none_iff]
      refine ⟨hleaf, ?_⟩
      obtain ⟨hs0, hs1⟩ := hs n hn
      rw [spanOf, locOf] at hs0 hs1
      rw [spanOf, locOf] at hle
      have hmodeq : (((lookupOff (pass1Offsets t) n.nid).getD (Loc.mk 0 0)).e
          - ((lookupOff (pass1Offsets t) n.nid).getD (Loc.mk 0 0)).b).emod (2 ^ 32)
          = ((lookupOff (pass1Offsets t) n.nid).getD (Loc.mk 0 0)).e
          - ((lookupOff (pass1Offsets t) n.nid).getD (Loc.mk 0 0)).b :=
        Int.emod_eq_of_lt hs0 hs1
      rw [hmodeq]
      omega
  refine ⟨?_, hiff⟩
  rintro ⟨n, hn, hle⟩
  exact hiff.mpr ⟨n, hn, by omega⟩

/-- C10 witness: `egWideRoot` is a valid 2-3-4 shape whose root span (16)
does not exceed its label length plus one (15 + 1), and rendering indeed
aborts. -/
theorem render_assert_abort_iff_witness : getStringAll egWideRoot = none :=
  (render_assert_abort_iff egWideRoot
    (by
      simp [internalsList, bfsNodes, allChildren, slotsUpTo, slotsIdx, kMaxNumChildren,
        isLeaf, spanOf, locOf, pass1Offsets, pass1Go, pass1Step, levelChildren,
        SetBeginLocation, SetEndLocation, lookupOff, emplaceOff, setB, setE, labelLen,
        getString, numKeys, keyAt, childAt, egWideRoot, leafN, Node.nid, Node.keys,
        Node.parent, Node.children]
      all_goals decide)).2.mpr
    ⟨egWideRoot,
      by
        simp [internalsList, bfsNodes, allChildren, slotsUpTo, slotsIdx, kMaxNumChildren,
          isLeaf, egWideRoot, leafN, Node.children],
      by
        simp [spanOf, locOf, pass1Offsets, pass1Go, pass1Step, levelChildren,
          SetBeginLocation, SetEndLocation, lookupOff, emplaceOff, setB, setE, labelLen,
          getString, numKeys, keyAt, childAt, isLeaf, allChildren, slotsUpTo, slotsIdx,
          kMaxNumChildren, egWideRoot, leafN, Node.nid, Node.keys, Node.parent,
          Node.children]
        all_goals decide⟩
